import Mathlib

/-!
Verification of the random-graph core of `progress1.py`.

The program builds a random undirected simple graph on vertices
`0, …, n-1` (`create_random_graph`), then derives a degree table
(`dict(G.degree())`), an adjacency matrix (`nx.to_numpy_array`), and
summary statistics (node count, edge count, average degree, connected
component count).

Shallow embedding conventions:
* Python `int` is `Int`; list indices and sizes are `Nat`.
* `range(n)` and `range(a, b)` become `pyRange` / `pyRangeFrom`.
* The global pseudo-random source consumed by `random.sample` is an
  explicit stream `picks : Nat → Nat`; at each sampling step the next
  stream value is reduced modulo the current population size, the
  element at that index is taken and removed.  `random.sample`'s
  "Sample larger than population" `ValueError` is modelled by `Option`:
  `sample` returns `none` exactly when the requested size exceeds the
  population size.
* `nx.number_connected_components` is modelled by the union-find style
  relabelling pass described in the spec (merge the label classes of
  the two endpoints of each edge, then count distinct labels).
-/

/-- Python `range(n)` as a list of `Int` (empty when `n ≤ 0`). -/
def pyRange (n : Int) : List Int :=
  (List.range n.toNat).map (fun (k : Nat) => (k : Int))

/-- Python `range(a, b)` as a list of `Int` (empty when `b ≤ a`). -/
def pyRangeFrom (a b : Int) : List Int :=
  (List.range (b - a).toNat).map (fun (k : Nat) => a + (k : Int))

/-- `possible_edges = [(i, j) for i in range(n) for j in range(i+1, n)]`
from `create_random_graph`. -/
def possibleEdges (n : Int) : List (Int × Int) :=
  (pyRange n).flatMap (fun i => (pyRangeFrom (i + 1) n).map (fun j => (i, j)))

/-- One selection pass of `random.sample`: draw `k` elements, each step
taking the element at index `picks step % pop.length` and removing it
from the population.  The empty-population branch is unreachable when
`k ≤ pop.length`. -/
def sampleGo : Nat → List α → (Nat → Nat) → Nat → List α
  | 0, _, _, _ => []
  | k + 1, pop, picks, step =>
    if h : 0 < pop.length then
      let j := picks step % pop.length
      pop.get ⟨j, Nat.mod_lt _ h⟩ :: sampleGo k (pop.eraseIdx j) picks (step + 1)
    else []

/-- `random.sample(pop, k)` driven by the stream `picks`; `none` models
the `ValueError` raised when `k` exceeds the population size. -/
def sample (pop : List α) (k : Nat) (picks : Nat → Nat) : Option (List α) :=
  if k ≤ pop.length then some (sampleGo k pop picks 0) else none

/-- An undirected graph as the program keeps it: the node list (insertion
order `0, …, n-1`) and the list of added edges. -/
structure Graph where
  nodes : List Int
  edges : List (Int × Int)
deriving Repr, DecidableEq

/-- `create_random_graph(n, m)` from `progress1.py`: nodes `0, …, n-1`,
`m` clamped to the number of candidate pairs, then a `random.sample`
draw of the edges, driven by the explicit random stream `picks`. -/
def create_random_graph (n : Int) (m : Nat) (picks : Nat → Nat) : Option Graph :=
  let possible_edges := possibleEdges n
  let mc := min m possible_edges.length
  (sample possible_edges mc picks).map (fun es => { nodes := pyRange n, edges := es })

/-- `dict(G.degree())`: for each node in insertion order, the number of
incident edges (the program's graphs have no self-loops, so this is the
count of edges containing the node). -/
def degrees (g : Graph) : List (Int × Nat) :=
  g.nodes.map (fun v => (v, (g.edges.filter (fun e => e.1 = v ∨ e.2 = v)).length))

/-- Entry `(i, j)` of `nx.to_numpy_array(G, dtype=int)`: 1 iff the pair
is an edge in either orientation. -/
def adjEntry (g : Graph) (i j : Int) : Nat :=
  if (i, j) ∈ g.edges ∨ (j, i) ∈ g.edges then 1 else 0

/-- `nx.to_numpy_array(G, dtype=int)` as a row-major list of rows, nodes
in insertion order. -/
def adjacencyMatrix (g : Graph) : List (List Nat) :=
  g.nodes.map (fun i => g.nodes.map (fun j => adjEntry g i j))

/-- Total of all entries of a matrix. -/
def matrixSum (mat : List (List Nat)) : Nat :=
  (mat.map List.sum).sum

/-- Python's `round(x, 2)` on the rational value of the mean (the tie
direction of floating-point rounding is irrelevant to the claims, which
equate two applications of the same rounding). -/
def round2 (q : ℚ) : ℚ :=
  ((round (q * 100) : ℤ) : ℚ) / 100

/-- Line 148 of `progress1.py`:
`round(float(np.mean(list(dict(G.degree()).values()))), 2)` when the
graph has nodes, else `0`. -/
def averageDegree (g : Graph) : ℚ :=
  if 0 < g.nodes.length then
    round2 ((((degrees g).map (fun p => (p.2 : ℚ))).sum) / (g.nodes.length : ℚ))
  else 0

/-- One union step on a node-to-label state: merge the label classes of
the two endpoints of an edge. -/
def lookupLabel (st : List (Int × Int)) (v : Int) : Int :=
  ((st.find? (fun p => p.1 = v)).map Prod.snd).getD v

/-- Merge the label classes of the endpoints of `e`: every node carrying
the second endpoint's label is relabelled with the first endpoint's. -/
def unionStep (st : List (Int × Int)) (e : Int × Int) : List (Int × Int) :=
  let ra := lookupLabel st e.1
  let rb := lookupLabel st e.2
  if ra = rb then st else st.map (fun p => if p.2 = rb then (p.1, ra) else p)

/-- `nx.number_connected_components(G)`, modelled (as the spec describes)
by a union-find pass: start with every node its own label, merge along
every edge, count distinct labels. -/
def componentCount (g : Graph) : Nat :=
  (((g.edges.foldl unionStep (g.nodes.map (fun v => (v, v)))).map Prod.snd).dedup).length

/-! ### Basic facts about the Python ranges -/

theorem length_pyRange (n : Int) : (pyRange n).length = n.toNat := by
  rw [pyRange, List.length_map, List.length_range]

theorem mem_pyRange {n v : Int} : v ∈ pyRange n ↔ 0 ≤ v ∧ v < n := by
  simp only [pyRange, List.mem_map, List.mem_range]
  constructor
  · rintro ⟨k, hk, rfl⟩; omega
  · intro h; exact ⟨v.toNat, by omega, by omega⟩

theorem pyRange_nodup (n : Int) : (pyRange n).Nodup :=
  (List.nodup_range _).map (fun a b h => by omega)

theorem length_pyRangeFrom (a b : Int) : (pyRangeFrom a b).length = (b - a).toNat := by
  rw [pyRangeFrom, List.length_map, List.length_range]

theorem mem_pyRangeFrom {a b v : Int} : v ∈ pyRangeFrom a b ↔ a ≤ v ∧ v < b := by
  simp only [pyRangeFrom, List.mem_map, List.mem_range]
  constructor
  · rintro ⟨k, hk, rfl⟩; omega
  · intro h; exact ⟨(v - a).toNat, by omega, by omega⟩

theorem pyRangeFrom_nodup (a b : Int) : (pyRangeFrom a b).Nodup :=
  (List.nodup_range _).map (fun x y h => by omega)

/-! ### The candidate edge list -/

theorem mem_possibleEdges {n : Int} {e : Int × Int} :
    e ∈ possibleEdges n ↔ 0 ≤ e.1 ∧ e.1 < e.2 ∧ e.2 < n := by
  obtain ⟨a, b⟩ := e
  simp only [possibleEdges, List.mem_flatMap, List.mem_map, Prod.mk.injEq]
  constructor
  · rintro ⟨i, hi, j, hj, rfl, rfl⟩
    rw [mem_pyRange] at hi
    rw [mem_pyRangeFrom] at hj
    omega
  · intro h
    exact ⟨a, mem_pyRange.2 (by omega), b, mem_pyRangeFrom.2 (by omega), rfl, rfl⟩

theorem possibleEdges_nodup (n : Int) : (possibleEdges n).Nodup := by
  refine List.nodup_flatMap.2 ⟨?_, ?_⟩
  · intro i _
    exact (pyRangeFrom_nodup (i + 1) n).map (fun x y h => congrArg Prod.snd h)
  · refine (pyRange_nodup n).imp ?_
    intro i j hij
    intro p hp hq
    simp only [Function.onFun, List.mem_map] at hp hq
    obtain ⟨x, _, rfl⟩ := hp
    obtain ⟨y, _, hy⟩ := hq
    exact hij (congrArg Prod.fst hy.symm)

theorem sum_range_list (nn : Nat) : (List.range nn).sum * 2 = nn * (nn - 1) := by
  induction nn with
  | zero => rfl
  | succ p ih =>
    rw [List.range_succ, List.sum_append, Nat.add_mul, ih]
    cases p with
    | zero => rfl
    | succ q =>
      simp only [List.sum_cons, List.sum_nil, Nat.add_sub_cancel]
      ring

theorem sum_map_succ_list (l : List Nat) : (l.map Nat.succ).sum = l.sum + l.length := by
  induction l with
  | nil => rfl
  | cons a t ih =>
    simp only [List.map_cons, List.sum_cons, ih, List.length_cons]
    omega

theorem sum_map_rev_range (nn : Nat) :
    ((List.range nn).map (fun k => nn - 1 - k)).sum = (List.range nn).sum := by
  induction nn with
  | zero => rfl
  | succ p ih =>
    rw [List.range_succ_eq_map, List.map_cons, List.map_map, List.sum_cons, List.sum_cons]
    have hc : List.map ((fun k => p + 1 - 1 - k) ∘ Nat.succ) (List.range p)
        = List.map (fun k => p - 1 - k) (List.range p) := by
      refine List.map_congr_left ?_
      intro a _
      simp only [Function.comp]
      omega
    rw [hc, ih, sum_map_succ_list, List.length_range]
    omega

theorem length_possibleEdges_mul_two (n : Int) :
    (possibleEdges n).length * 2 = n.toNat * (n.toNat - 1) := by
  rw [possibleEdges, List.length_flatMap, pyRange, List.map_map]
  have h1 : (List.map ((List.length ∘ fun i => (pyRangeFrom (i + 1) n).map (fun j => (i, j)))
      ∘ fun (k : Nat) => (k : Int)) (List.range n.toNat)).sum
      = ((List.range n.toNat).map (fun k => n.toNat - 1 - k)).sum := by
    refine congrArg List.sum (List.map_congr_left ?_)
    intro a ha
    rw [List.mem_range] at ha
    simp only [Function.comp, List.length_map, length_pyRangeFrom]
    omega
  rw [h1, sum_map_rev_range, sum_range_list]

theorem length_possibleEdges (n : Int) :
    (possibleEdges n).length = n.toNat * (n.toNat - 1) / 2 := by
  have h := length_possibleEdges_mul_two n
  omega

/-! ### Facts about the sampling pass -/

theorem sampleGo_length :
    ∀ (k : Nat) (pop : List α) (picks : Nat → Nat) (step : Nat),
      k ≤ pop.length → (sampleGo k pop picks step).length = k := by
  intro k
  induction k with
  | zero => intro pop picks step _; rfl
  | succ p ih =>
    intro pop picks step hk
    have hpos : 0 < pop.length := by omega
    rw [sampleGo, dif_pos hpos, List.length_cons, ih]
    rw [List.length_eraseIdx_of_lt (Nat.mod_lt _ hpos)]
    omega

theorem sampleGo_subset :
    ∀ (k : Nat) (pop : List α) (picks : Nat → Nat) (step : Nat),
      ∀ x ∈ sampleGo k pop picks step, x ∈ pop := by
  intro k
  induction k with
  | zero => intro pop picks step x hx; simp [sampleGo] at hx
  | succ p ih =>
    intro pop picks step x hx
    rw [sampleGo] at hx
    by_cases hpos : 0 < pop.length
    · rw [dif_pos hpos] at hx
      rcases List.mem_cons.1 hx with h | h
      · rw [h]; exact List.get_mem _ _ _
      · exact List.eraseIdx_subset _ _ (ih _ picks _ x h)
    · rw [dif_neg hpos] at hx
      exact absurd hx (List.not_mem_nil x)

theorem get_not_mem_eraseIdx :
    ∀ (l : List α) (j : Nat) (h : j < l.length), l.Nodup → l.get ⟨j, h⟩ ∉ l.eraseIdx j := by
  intro l
  induction l with
  | nil => intro j h; simp at h
  | cons a t ih =>
    intro j h hnd
    rcases List.nodup_cons.1 hnd with ⟨hat, hnt⟩
    cases j with
    | zero => simpa using hat
    | succ p =>
      have hp : p < t.length := by simpa using h
      rw [List.eraseIdx_cons_succ]
      intro hmem
      rcases List.mem_cons.1 hmem with hcase | hcase
      · exact hat (hcase ▸ List.get_mem t p hp)
      · exact ih p hp hnt hcase

theorem sampleGo_nodup :
    ∀ (k : Nat) (pop : List α) (picks : Nat → Nat) (step : Nat),
      pop.Nodup → (sampleGo k pop picks step).Nodup := by
  intro k
  induction k with
  | zero => intro pop picks step _; exact List.nodup_nil
  | succ p ih =>
    intro pop picks step hnd
    rw [sampleGo]
    by_cases hpos : 0 < pop.length
    · rw [dif_pos hpos]
      refine List.nodup_cons.2 ⟨?_, ih _ picks _ ((List.eraseIdx_sublist _ _).nodup hnd)⟩
      intro hmem
      exact get_not_mem_eraseIdx pop _ _ hnd (sampleGo_subset _ _ _ _ _ hmem)
    · rw [dif_neg hpos]
      exact List.nodup_nil

theorem sampleGo_congr :
    ∀ (k : Nat) (pop : List α) (p1 p2 : Nat → Nat) (step : Nat),
      (∀ i, step ≤ i → i < step + k → p1 i = p2 i) →
      sampleGo k pop p1 step = sampleGo k pop p2 step := by
  intro k
  induction k with
  | zero => intro pop p1 p2 step _; rfl
  | succ p ih =>
    intro pop p1 p2 step hagree
    rw [sampleGo, sampleGo]
    by_cases hpos : 0 < pop.length
    · rw [dif_pos hpos, dif_pos hpos]
      have hstep : p1 step = p2 step := hagree step (le_refl _) (by omega)
      have hj : p1 step % pop.length = p2 step % pop.length := by rw [hstep]
      have hhead : pop.get ⟨p1 step % pop.length, Nat.mod_lt _ hpos⟩
          = pop.get ⟨p2 step % pop.length, Nat.mod_lt _ hpos⟩ := by
        congr 1
        exact Fin.ext hj
      have htail : sampleGo p (pop.eraseIdx (p1 step % pop.length)) p1 (step + 1)
          = sampleGo p (pop.eraseIdx (p2 step % pop.length)) p2 (step + 1) := by
        rw [hj]
        exact ih _ p1 p2 (step + 1) (fun i h1 h2 => hagree i (by omega) (by omega))
      exact congr (congrArg List.cons hhead) htail
    · rw [dif_neg hpos, dif_neg hpos]

/-! ### The shape of every generated graph -/

theorem create_random_graph_eq (n : Int) (m : Nat) (picks : Nat → Nat) :
    create_random_graph n m picks =
      some { nodes := pyRange n,
             edges := sampleGo (min m (possibleEdges n).length) (possibleEdges n) picks 0 } := by
  simp only [create_random_graph, sample]
  rw [if_pos (Nat.min_le_right m (possibleEdges n).length)]
  rfl

theorem generated_spec {n : Int} {m : Nat} {picks : Nat → Nat} {g : Graph}
    (h : create_random_graph n m picks = some g) :
    g.nodes = pyRange n ∧ g.edges.length = min m (possibleEdges n).length ∧
      g.edges.Nodup ∧ ∀ e ∈ g.edges, e ∈ possibleEdges n := by
  rw [create_random_graph_eq] at h
  obtain rfl : g = _ := (Option.some.inj h).symm
  refine ⟨rfl, ?_, ?_, ?_⟩
  · exact sampleGo_length _ _ _ _ (Nat.min_le_right _ _)
  · exact sampleGo_nodup _ _ _ _ (possibleEdges_nodup n)
  · exact sampleGo_subset _ _ _ _

theorem pyRange_eq_nil {n : Int} (h : n ≤ 0) : pyRange n = [] := by
  rw [pyRange]
  have : n.toNat = 0 := by omega
  rw [this]
  rfl

theorem possibleEdges_eq_nil {n : Int} (h : n ≤ 0) : possibleEdges n = [] := by
  rw [possibleEdges, pyRange_eq_nil h]
  rfl

/-! ### Claim theorems: generation -/

/-- C1: for every nodeCount `n` in `[1, 200]` and every requested edge
count `m ≥ 0`, `create_random_graph` returns a graph whose node list is
exactly `0, …, n-1` (isolated nodes included) and whose edge list has
size exactly `min m (n*(n-1)/2)`, with no duplicate edges, no
self-loops, and no endpoint outside `[0, n)`. -/
theorem C1_generate_wellformed (n : Int) (h1 : 1 ≤ n) (h2 : n ≤ 200)
    (m : Nat) (picks : Nat → Nat) :
    ∃ g, create_random_graph n m picks = some g ∧
      g.nodes = pyRange n ∧
      (∀ v, v ∈ g.nodes ↔ 0 ≤ v ∧ v < n) ∧
      g.edges.length = min m (n.toNat * (n.toNat - 1) / 2) ∧
      g.edges.Nodup ∧
      (∀ e ∈ g.edges, e.1 ≠ e.2) ∧
      (∀ e ∈ g.edges, 0 ≤ e.1 ∧ e.1 < n ∧ 0 ≤ e.2 ∧ e.2 < n) := by
  obtain ⟨g, hg⟩ : ∃ g, create_random_graph n m picks = some g :=
    ⟨_, create_random_graph_eq n m picks⟩
  obtain ⟨hnodes, hlen, hnd, hmem⟩ := generated_spec hg
  refine ⟨g, hg, hnodes, ?_, ?_, hnd, ?_, ?_⟩
  · intro v; rw [hnodes]; exact mem_pyRange
  · rw [hlen, length_possibleEdges]
  · intro e he
    have := mem_possibleEdges.1 (hmem e he)
    omega
  · intro e he
    have := mem_possibleEdges.1 (hmem e he)
    omega

theorem C1_generate_wellformed_witness :
    (1 : Int) ≤ 5 ∧ (5 : Int) ≤ 200 ∧
      (∃ g, create_random_graph 5 3 (fun i => i) = some g ∧
        g.nodes = pyRange 5 ∧
        (∀ v, v ∈ g.nodes ↔ 0 ≤ v ∧ v < 5) ∧
        g.edges.length = min 3 ((5 : Int).toNat * ((5 : Int).toNat - 1) / 2) ∧
        g.edges.Nodup ∧
        (∀ e ∈ g.edges, e.1 ≠ e.2) ∧
        (∀ e ∈ g.edges, 0 ≤ e.1 ∧ e.1 < 5 ∧ 0 ≤ e.2 ∧ e.2 < 5)) :=
  ⟨by decide, by decide, C1_generate_wellformed 5 (by decide) (by decide) 3 (fun i => i)⟩

/-- C9: for every `n ≥ 0` and `m ≥ 0`, `create_random_graph` returns
normally: the `min` clamp keeps the sample size within the candidate
population, so the sampling `ValueError` branch (the `none` of
`sample`) is unreachable. -/
theorem C9_generate_total (n : Int) (h : 0 ≤ n) (m : Nat) (picks : Nat → Nat) :
    (create_random_graph n m picks).isSome = true ∧
      sample (possibleEdges n) (min m (possibleEdges n).length) picks ≠ none := by
  constructor
  · rw [create_random_graph_eq]; rfl
  · rw [sample, if_pos (Nat.min_le_right m (possibleEdges n).length)]
    exact Option.some_ne_none _

theorem C9_generate_total_witness :
    (0 : Int) ≤ 7 ∧
      ((create_random_graph 7 1000 (fun i => i + 2)).isSome = true ∧
        sample (possibleEdges 7) (min 1000 (possibleEdges 7).length) (fun i => i + 2) ≠ none) :=
  ⟨by decide, C9_generate_total 7 (by decide) 1000 (fun i => i + 2)⟩

/-- C10: for zero or negative `n`, `create_random_graph` returns the
graph with no nodes and no edges (the candidate list is empty and the
edge count clamps to 0); no error is signalled to the caller. -/
theorem C10_nonpositive_nodeCount (n : Int) (h : n ≤ 0) (m : Nat) (picks : Nat → Nat) :
    create_random_graph n m picks = some { nodes := [], edges := [] } := by
  rw [create_random_graph_eq, pyRange_eq_nil h, possibleEdges_eq_nil h]
  have hz : min m ([] : List (Int × Int)).length = 0 := by simp
  rw [hz]
  rfl

theorem C10_nonpositive_nodeCount_witness :
    (-2 : Int) ≤ 0 ∧ create_random_graph (-2) 9 (fun _ => 5) = some { nodes := [], edges := [] } :=
  ⟨by decide, C10_nonpositive_nodeCount (-2) (by decide) 9 (fun _ => 5)⟩

/-- C2 counterexample: at `nodeCount = 0` (out of range per the claim)
the code does not fail: it returns the empty graph. -/
theorem C2_counterexample_returns_graph :
    (create_random_graph 0 5 (fun _ => 0)).isSome = true ∧
      create_random_graph 0 5 (fun _ => 0) = some { nodes := [], edges := [] } := by
  exact ⟨by decide, by decide⟩

/-- C2 (amended): `create_random_graph` clamps an over-large edge count
defensively and never fails for any input; for non-positive `n` it also
returns normally — with the empty graph — instead of failing with an
`InvalidArgument` error. -/
theorem C2_clamp_and_never_fail (n : Int) (m : Nat) (picks : Nat → Nat) :
    (create_random_graph n m picks).isSome = true ∧
      (∀ g, create_random_graph n m picks = some g →
        g.edges.length ≤ (possibleEdges n).length) ∧
      (n ≤ 0 → create_random_graph n m picks = some { nodes := [], edges := [] }) := by
  refine ⟨by rw [create_random_graph_eq]; rfl, ?_, ?_⟩
  · intro g hg
    rw [(generated_spec hg).2.1]
    exact Nat.min_le_right _ _
  · intro hn
    rw [create_random_graph_eq, pyRange_eq_nil hn, possibleEdges_eq_nil hn]
    have hz : min m ([] : List (Int × Int)).length = 0 := by simp
    rw [hz]
    rfl

theorem C2_clamp_and_never_fail_witness :
    create_random_graph (-3) 7 (fun _ => 0) = some { nodes := [], edges := [] } :=
  (C2_clamp_and_never_fail (-3) 7 (fun _ => 0)).2.2 (by decide)

/-- C3 counterexample: `create_random_graph` has no seed parameter — its
randomness is the global stream — so two calls with identical
`nodeCount` and `edgeCount` arguments need not agree: with stream
values 0 the draw on 3 nodes and 1 edge is `[(0, 1)]`, with stream
values 1 it is `[(0, 2)]`. -/
theorem C3_counterexample_no_seed :
    create_random_graph 3 1 (fun _ => 0) ≠ create_random_graph 3 1 (fun _ => 1) := by
  decide

/-- C3 (amended): determinism holds relative to the random source: two
runs of `create_random_graph` with identical `nodeCount` and
`edgeCount` whose random streams agree on the consumed prefix (the
first `min m C` draws, `C` the candidate-pair count) produce identical
graphs, hence identical edge sets. -/
theorem C3_deterministic_given_stream (n : Int) (m : Nat) (p1 p2 : Nat → Nat)
    (h : ∀ i, i < min m (possibleEdges n).length → p1 i = p2 i) :
    create_random_graph n m p1 = create_random_graph n m p2 := by
  rw [create_random_graph_eq, create_random_graph_eq]
  have := sampleGo_congr (min m (possibleEdges n).length) (possibleEdges n) p1 p2 0
    (fun i h1 h2 => h i (by omega))
  rw [this]

theorem C3_deterministic_given_stream_witness :
    (∀ i, i < min 2 (possibleEdges 3).length →
      (fun (i : Nat) => i) i = (fun (i : Nat) => if i < 2 then i else 99) i) ∧
    create_random_graph 3 2 (fun i => i) = create_random_graph 3 2 (fun i => if i < 2 then i else 99) :=
  ⟨by decide, C3_deterministic_given_stream 3 2 (fun i => i)
    (fun i => if i < 2 then i else 99) (by decide)⟩

/-! ### Degree table and the handshake identity -/

theorem sum_if_eq_count {β : Type} [DecidableEq β] (P : List β) (e : β) :
    (P.map (fun p => if p = e then (1 : Nat) else 0)).sum = P.count e := by
  induction P with
  | nil => rfl
  | cons x t ih =>
    rw [List.map_cons, List.sum_cons, ih, List.count_cons]
    by_cases h : x = e <;> simp [h] <;> omega

theorem sum_indicator_pair (N : List Int) (a b : Int) (hab : a ≠ b)
    (hnd : N.Nodup) (ha : a ∈ N) (hb : b ∈ N) :
    (N.map (fun v => if a = v ∨ b = v then (1 : Nat) else 0)).sum = 2 := by
  have hsplit : (N.map (fun v => if a = v ∨ b = v then (1 : Nat) else 0))
      = N.map (fun v => (if v = a then (1 : Nat) else 0) + (if v = b then 1 else 0)) := by
    refine List.map_congr_left ?_
    intro v _
    by_cases h1 : v = a
    · rw [if_pos (Or.inl h1.symm), if_pos h1, if_neg (show ¬v = b by omega)]
    · by_cases h2 : v = b
      · rw [if_pos (Or.inr h2.symm), if_neg h1, if_pos h2]
      · rw [if_neg (show ¬(a = v ∨ b = v) by rintro (h | h) <;> omega),
          if_neg h1, if_neg h2]
  rw [hsplit, List.sum_map_add, sum_if_eq_count, sum_if_eq_count,
    List.count_eq_one_of_mem hnd ha, List.count_eq_one_of_mem hnd hb]

theorem degree_sum_aux :
    ∀ (E : List (Int × Int)) (N : List Int), N.Nodup →
      (∀ e ∈ E, e.1 ≠ e.2 ∧ e.1 ∈ N ∧ e.2 ∈ N) →
      (N.map (fun v => (E.filter (fun e => e.1 = v ∨ e.2 = v)).length)).sum = 2 * E.length := by
  intro E
  induction E with
  | nil =>
    intro N _ _
    have : N.map (fun v => (([] : List (Int × Int)).filter
        (fun e => e.1 = v ∨ e.2 = v)).length) = N.map (fun _ => 0) := by
      refine List.map_congr_left ?_
      intro v _
      rfl
    rw [this]
    simp
  | cons e E ih =>
    intro N hnd hE
    obtain ⟨hne, h1, h2⟩ := hE e (List.mem_cons_self e E)
    have hpoint : N.map (fun v => ((e :: E).filter (fun x => x.1 = v ∨ x.2 = v)).length)
        = N.map (fun v => (if e.1 = v ∨ e.2 = v then (1 : Nat) else 0)
            + (E.filter (fun x => x.1 = v ∨ x.2 = v)).length) := by
      refine List.map_congr_left ?_
      intro v _
      by_cases h : e.1 = v ∨ e.2 = v <;> simp [List.filter_cons, h] <;> omega
    rw [hpoint, List.sum_map_add, sum_indicator_pair N e.1 e.2 hne hnd h1 h2,
      ih N hnd (fun x hx => hE x (List.mem_cons_of_mem e hx))]
    rw [List.length_cons]
    ring

theorem degrees_values (g : Graph) :
    (degrees g).map Prod.snd
      = g.nodes.map (fun v => (g.edges.filter (fun e => e.1 = v ∨ e.2 = v)).length) := by
  rw [degrees, List.map_map]
  rfl

theorem handshake (g : Graph) (hnd : g.nodes.Nodup)
    (hE : ∀ e ∈ g.edges, e.1 ≠ e.2 ∧ e.1 ∈ g.nodes ∧ e.2 ∈ g.nodes) :
    ((degrees g).map Prod.snd).sum = 2 * g.edges.length := by
  rw [degrees_values]
  exact degree_sum_aux g.edges g.nodes hnd hE

theorem generated_edge_endpoints {n : Int} {m : Nat} {picks : Nat → Nat} {g : Graph}
    (h : create_random_graph n m picks = some g) :
    ∀ e ∈ g.edges, e.1 ≠ e.2 ∧ e.1 ∈ g.nodes ∧ e.2 ∈ g.nodes := by
  obtain ⟨hnodes, _, _, hmem⟩ := generated_spec h
  intro e he
  have hin := mem_possibleEdges.1 (hmem e he)
  rw [hnodes]
  refine ⟨by omega, mem_pyRange.2 (by omega), mem_pyRange.2 (by omega)⟩

/-- C5: for every generated graph, the values of the degree table sum to
exactly twice the number of edges (handshake property). -/
theorem C5_handshake (n : Int) (m : Nat) (picks : Nat → Nat) (g : Graph)
    (h : create_random_graph n m picks = some g) :
    ((degrees g).map Prod.snd).sum = 2 * g.edges.length := by
  have hnodes := (generated_spec h).1
  refine handshake g ?_ (generated_edge_endpoints h)
  rw [hnodes]
  exact pyRange_nodup n

theorem C5_handshake_witness :
    create_random_graph 4 3 (fun i => i)
        = some { nodes := [0, 1, 2, 3], edges := [(0, 1), (0, 3), (1, 3)] } ∧
      ((degrees { nodes := [0, 1, 2, 3], edges := [(0, 1), (0, 3), (1, 3)] }).map Prod.snd).sum
        = 2 * ({ nodes := [0, 1, 2, 3], edges := [(0, 1), (0, 3), (1, 3)] } : Graph).edges.length :=
  ⟨by decide, C5_handshake 4 3 (fun i => i) _ (by decide)⟩

/-- C8: for every graph generated with nodeCount `n`, the degree table
has exactly `n` entries, one per node index in `[0, n)` in order, and
each entry pairs the node with the count of edges containing it, so
isolated nodes appear with degree 0. -/
theorem C8_degree_table (n : Int) (m : Nat) (picks : Nat → Nat) (g : Graph)
    (h : create_random_graph n m picks = some g) :
    (degrees g).length = n.toNat ∧
      (degrees g).map Prod.fst = pyRange n ∧
      (∀ p ∈ degrees g, p.2 = (g.edges.filter (fun e => e.1 = p.1 ∨ e.2 = p.1)).length) ∧
      (∀ v, 0 ≤ v → v < n →
        (v, (g.edges.filter (fun e => e.1 = v ∨ e.2 = v)).length) ∈ degrees g) := by
  have hnodes := (generated_spec h).1
  refine ⟨?_, ?_, ?_, ?_⟩
  · rw [degrees, List.length_map, hnodes, length_pyRange]
  · rw [degrees, List.map_map, hnodes]
    exact List.map_congr_left (fun v _ => rfl) |>.trans (List.map_id _)
  · intro p hp
    rw [degrees, List.mem_map] at hp
    obtain ⟨v, _, rfl⟩ := hp
    rfl
  · intro v h0 hn
    rw [degrees, List.mem_map]
    exact ⟨v, by rw [hnodes]; exact mem_pyRange.2 ⟨h0, hn⟩, rfl⟩

theorem C8_degree_table_witness :
    (degrees { nodes := [0, 1, 2, 3], edges := [(0, 1), (0, 3), (1, 3)] }).length = (4 : Int).toNat ∧
      (degrees { nodes := [0, 1, 2, 3], edges := [(0, 1), (0, 3), (1, 3)] }).map Prod.fst = pyRange 4 ∧
      (∀ p ∈ degrees { nodes := [0, 1, 2, 3], edges := [(0, 1), (0, 3), (1, 3)] },
        p.2 = (({ nodes := [0, 1, 2, 3], edges := [(0, 1), (0, 3), (1, 3)] } : Graph).edges.filter
          (fun e => e.1 = p.1 ∨ e.2 = p.1)).length) ∧
      (∀ v, 0 ≤ v → v < 4 →
        (v, (({ nodes := [0, 1, 2, 3], edges := [(0, 1), (0, 3), (1, 3)] } : Graph).edges.filter
          (fun e => e.1 = v ∨ e.2 = v)).length) ∈
            degrees { nodes := [0, 1, 2, 3], edges := [(0, 1), (0, 3), (1, 3)] }) :=
  C8_degree_table 4 3 (fun i => i) _ (by decide)

/-! ### Adjacency matrix -/

theorem sum_map_zero {γ : Type} (l : List γ) : (l.map (fun _ => (0 : Nat))).sum = 0 := by
  induction l with
  | nil => rfl
  | cons a t ih => rw [List.map_cons, List.sum_cons, ih]

theorem sum_comm_list {γ δ : Type} (N : List γ) (M : List δ) (f : γ → δ → Nat) :
    (N.map (fun i => (M.map (fun j => f i j)).sum)).sum
      = (M.map (fun j => (N.map (fun i => f i j)).sum)).sum := by
  induction N with
  | nil =>
    rw [List.map_nil, List.sum_nil]
    have h1 : M.map (fun j => (([] : List γ).map (fun i => f i j)).sum) = M.map (fun _ => 0) :=
      List.map_congr_left (fun j _ => rfl)
    rw [h1, sum_map_zero]
  | cons a t ih =>
    rw [List.map_cons, List.sum_cons, ih, ← List.sum_map_add]
    refine congrArg List.sum (List.map_congr_left ?_)
    intro j _
    rw [List.map_cons, List.sum_cons]

theorem double_sum_count (N : List Int) :
    ∀ E : List (Int × Int), N.Nodup → (∀ e ∈ E, e.1 ∈ N ∧ e.2 ∈ N) →
      (N.map (fun i => (N.map (fun j => E.count (i, j))).sum)).sum = E.length := by
  intro E
  induction E with
  | nil =>
    intro _ _
    have h1 : N.map (fun i => (N.map (fun j => ([] : List (Int × Int)).count (i, j))).sum)
        = N.map (fun _ => (0 : Nat)) := by
      refine List.map_congr_left ?_
      intro i _
      have h2 : N.map (fun j => ([] : List (Int × Int)).count (i, j))
          = N.map (fun _ => (0 : Nat)) := List.map_congr_left (fun j _ => rfl)
      rw [h2, sum_map_zero]
    rw [h1, sum_map_zero, List.length_nil]
  | cons e E ih =>
    intro hnd hE
    obtain ⟨he1, he2⟩ := hE e (List.mem_cons_self e E)
    have hpt : N.map (fun i => (N.map (fun j => (e :: E).count (i, j))).sum)
        = N.map (fun i => (N.map (fun j => E.count (i, j))).sum
            + (N.map (fun j => if e = (i, j) then (1 : Nat) else 0)).sum) := by
      refine List.map_congr_left ?_
      intro i _
      rw [← List.sum_map_add]
      refine congrArg List.sum (List.map_congr_left ?_)
      intro j _
      rw [List.count_cons]
      congr 1
      by_cases he : e = (i, j) <;> simp [he]
    have hone : (N.map (fun i => (N.map (fun j => if e = (i, j) then (1 : Nat) else 0)).sum)).sum
        = 1 := by
      have hpt2 : N.map (fun i => (N.map (fun j => if e = (i, j) then (1 : Nat) else 0)).sum)
          = N.map (fun i => if i = e.1 then (1 : Nat) else 0) := by
        refine List.map_congr_left ?_
        intro i _
        by_cases hi : i = e.1
        · have hin : N.map (fun j => if e = (i, j) then (1 : Nat) else 0)
              = N.map (fun j => if j = e.2 then (1 : Nat) else 0) := by
            refine List.map_congr_left ?_
            intro j _
            by_cases hj : j = e.2
            · rw [if_pos (by rw [hi, hj]), if_pos hj]
            · rw [if_neg (fun hh => hj (congrArg Prod.snd hh).symm), if_neg hj]
          rw [hin, sum_if_eq_count, List.count_eq_one_of_mem hnd he2, if_pos hi]
        · have hz : N.map (fun j => if e = (i, j) then (1 : Nat) else 0)
              = N.map (fun _ => (0 : Nat)) := by
            refine List.map_congr_left ?_
            intro j _
            rw [if_neg (fun hh => hi (congrArg Prod.fst hh).symm)]
          rw [hz, sum_map_zero, if_neg hi]
      rw [hpt2, sum_if_eq_count, List.count_eq_one_of_mem hnd he1]
    rw [hpt, List.sum_map_add, ih hnd (fun x hx => hE x (List.mem_cons_of_mem e hx)),
      hone, List.length_cons]

theorem count_eq_one_of_nodup_mem {β : Type} [BEq β] [LawfulBEq β] {l : List β} {a : β}
    (hnd : l.Nodup) (ha : a ∈ l) : l.count a = 1 := by
  induction l with
  | nil => exact absurd ha (List.not_mem_nil a)
  | cons x t ih =>
    rw [List.count_cons]
    rcases List.nodup_cons.1 hnd with ⟨hxt, hnt⟩
    rcases List.mem_cons.1 ha with rfl | hat
    · rw [List.count_eq_zero.2 hxt]
      simp
    · have hne : x ≠ a := fun hh => hxt (hh ▸ hat)
      rw [ih hnt hat]
      simp [hne]

theorem adjEntry_eq_count {g : Graph} (hnd : g.edges.Nodup)
    (hlt : ∀ e ∈ g.edges, e.1 < e.2) (i j : Int) :
    adjEntry g i j = g.edges.count (i, j) + g.edges.count (j, i) := by
  rw [adjEntry]
  by_cases h1 : (i, j) ∈ g.edges
  · have hij : i < j := hlt _ h1
    have h2 : (j, i) ∉ g.edges := by
      intro hh
      have hji : j < i := hlt _ hh
      omega
    rw [if_pos (Or.inl h1), count_eq_one_of_nodup_mem hnd h1, List.count_eq_zero.2 h2]
  · by_cases h2 : (j, i) ∈ g.edges
    · rw [if_pos (Or.inr h2), List.count_eq_zero.2 h1, count_eq_one_of_nodup_mem hnd h2]
    · rw [if_neg (by rintro (hh | hh) <;> [exact h1 hh; exact h2 hh]),
        List.count_eq_zero.2 h1, List.count_eq_zero.2 h2]

theorem matrixSum_adjacency (g : Graph) (hndN : g.nodes.Nodup) (hndE : g.edges.Nodup)
    (hlt : ∀ e ∈ g.edges, e.1 < e.2)
    (hE : ∀ e ∈ g.edges, e.1 ∈ g.nodes ∧ e.2 ∈ g.nodes) :
    matrixSum (adjacencyMatrix g) = 2 * g.edges.length := by
  have h0 : matrixSum (adjacencyMatrix g)
      = (g.nodes.map (fun i => (g.nodes.map (fun j => adjEntry g i j)).sum)).sum := by
    rw [matrixSum, adjacencyMatrix, List.map_map]
    rfl
  have h1 : g.nodes.map (fun i => (g.nodes.map (fun j => adjEntry g i j)).sum)
      = g.nodes.map (fun i => (g.nodes.map (fun j => g.edges.count (i, j))).sum
          + (g.nodes.map (fun j => g.edges.count (j, i))).sum) := by
    refine List.map_congr_left ?_
    intro i _
    rw [← List.sum_map_add]
    refine congrArg List.sum (List.map_congr_left ?_)
    intro j _
    exact adjEntry_eq_count hndE hlt i j
  rw [h0, h1, List.sum_map_add, double_sum_count g.nodes g.edges hndN hE,
    sum_comm_list, double_sum_count g.nodes g.edges hndN hE]
  omega

/-- C4: for every generated graph the adjacency matrix is an `n × n`
0/1 matrix, symmetric, with zero diagonal, whose entry is 1 exactly
when the pair is an edge (in either orientation), and whose total entry
sum is twice the edge count. -/
theorem C4_adjacency_matrix (n : Int) (m : Nat) (picks : Nat → Nat) (g : Graph)
    (h : create_random_graph n m picks = some g) :
    (adjacencyMatrix g).length = n.toNat ∧
      (∀ row ∈ adjacencyMatrix g, row.length = n.toNat) ∧
      (∀ i j, adjEntry g i j = adjEntry g j i) ∧
      (∀ i, adjEntry g i i = 0) ∧
      (∀ i j, adjEntry g i j = 1 ↔ ((i, j) ∈ g.edges ∨ (j, i) ∈ g.edges)) ∧
      (∀ i j, adjEntry g i j = 0 ∨ adjEntry g i j = 1) ∧
      matrixSum (adjacencyMatrix g) = 2 * g.edges.length := by
  obtain ⟨hnodes, _, hnd, hmem⟩ := generated_spec h
  refine ⟨?_, ?_, ?_, ?_, ?_, ?_, ?_⟩
  · rw [adjacencyMatrix, List.length_map, hnodes, length_pyRange]
  · intro row hrow
    rw [adjacencyMatrix, List.mem_map] at hrow
    obtain ⟨i, _, rfl⟩ := hrow
    rw [List.length_map, hnodes, length_pyRange]
  · intro i j
    rw [adjEntry, adjEntry]
    by_cases hc : (i, j) ∈ g.edges ∨ (j, i) ∈ g.edges
    · rw [if_pos hc, if_pos (Or.symm hc)]
    · rw [if_neg hc, if_neg (fun hh => hc (Or.symm hh))]
  · intro i
    rw [adjEntry, if_neg]
    rintro (hh | hh) <;>
      · have := mem_possibleEdges.1 (hmem _ hh)
        omega
  · intro i j
    rw [adjEntry]
    by_cases hc : (i, j) ∈ g.edges ∨ (j, i) ∈ g.edges
    · rw [if_pos hc]
      exact ⟨fun _ => hc, fun _ => rfl⟩
    · rw [if_neg hc]
      exact ⟨fun hh => absurd hh (by omega), fun hh => absurd hh hc⟩
  · intro i j
    rw [adjEntry]
    by_cases hc : (i, j) ∈ g.edges ∨ (j, i) ∈ g.edges
    · rw [if_pos hc]; exact Or.inr rfl
    · rw [if_neg hc]; exact Or.inl rfl
  · refine matrixSum_adjacency g ?_ hnd ?_ ?_
    · rw [hnodes]; exact pyRange_nodup n
    · intro e he
      have := mem_possibleEdges.1 (hmem e he)
      omega
    · intro e he
      have := mem_possibleEdges.1 (hmem e he)
      rw [hnodes]
      exact ⟨mem_pyRange.2 (by omega), mem_pyRange.2 (by omega)⟩

theorem C4_adjacency_matrix_witness :
    (adjacencyMatrix { nodes := [0, 1, 2], edges := [(0, 1)] }).length = (3 : Int).toNat ∧
      (∀ row ∈ adjacencyMatrix { nodes := [0, 1, 2], edges := [(0, 1)] },
        row.length = (3 : Int).toNat) ∧
      (∀ i j, adjEntry { nodes := [0, 1, 2], edges := [(0, 1)] } i j
        = adjEntry { nodes := [0, 1, 2], edges := [(0, 1)] } j i) ∧
      (∀ i, adjEntry { nodes := [0, 1, 2], edges := [(0, 1)] } i i = 0) ∧
      (∀ i j, adjEntry { nodes := [0, 1, 2], edges := [(0, 1)] } i j = 1 ↔
        ((i, j) ∈ ({ nodes := [0, 1, 2], edges := [(0, 1)] } : Graph).edges ∨
          (j, i) ∈ ({ nodes := [0, 1, 2], edges := [(0, 1)] } : Graph).edges)) ∧
      (∀ i j, adjEntry { nodes := [0, 1, 2], edges := [(0, 1)] } i j = 0 ∨
        adjEntry { nodes := [0, 1, 2], edges := [(0, 1)] } i j = 1) ∧
      matrixSum (adjacencyMatrix { nodes := [0, 1, 2], edges := [(0, 1)] })
        = 2 * ({ nodes := [0, 1, 2], edges := [(0, 1)] } : Graph).edges.length :=
  C4_adjacency_matrix 3 1 (fun _ => 0) _ (by decide)

/-! ### Average degree -/

theorem degrees_cast_sum (g : Graph) :
    (((degrees g).map (fun p => (p.2 : ℚ))).sum) = (((degrees g).map Prod.snd).sum : ℚ) := by
  rw [Nat.cast_list_sum, List.map_map]
  rfl

/-- C7: for every generated graph the mean of the per-node degree values
is exactly `2 * edgeCount / nodeCount` (as rationals), so the displayed
average degree is `round2 (2 * edgeCount / nodeCount)`; for an empty
node list it is 0. -/
theorem C7_average_degree (n : Int) (m : Nat) (picks : Nat → Nat) (g : Graph)
    (h : create_random_graph n m picks = some g) :
    (g.nodes.length ≠ 0 →
      ((((degrees g).map (fun p => (p.2 : ℚ))).sum / (g.nodes.length : ℚ)
          = 2 * (g.edges.length : ℚ) / (g.nodes.length : ℚ)) ∧
        averageDegree g = round2 (2 * (g.edges.length : ℚ) / (g.nodes.length : ℚ)))) ∧
      (g.nodes.length = 0 → averageDegree g = 0) := by
  have hsum : (((degrees g).map (fun p => (p.2 : ℚ))).sum) = 2 * (g.edges.length : ℚ) := by
    rw [degrees_cast_sum,
      handshake g (by rw [(generated_spec h).1]; exact pyRange_nodup n)
        (generated_edge_endpoints h)]
    push_cast
    ring
  constructor
  · intro hne
    refine ⟨by rw [hsum], ?_⟩
    rw [averageDegree, if_pos (Nat.pos_of_ne_zero hne), hsum]
  · intro hzero
    rw [averageDegree, if_neg (by omega)]

theorem C7_average_degree_witness :
    (({ nodes := [0, 1], edges := [(0, 1)] } : Graph).nodes.length ≠ 0 →
      ((((degrees { nodes := [0, 1], edges := [(0, 1)] }).map (fun p => (p.2 : ℚ))).sum
          / (({ nodes := [0, 1], edges := [(0, 1)] } : Graph).nodes.length : ℚ)
          = 2 * (({ nodes := [0, 1], edges := [(0, 1)] } : Graph).edges.length : ℚ)
            / (({ nodes := [0, 1], edges := [(0, 1)] } : Graph).nodes.length : ℚ)) ∧
        averageDegree { nodes := [0, 1], edges := [(0, 1)] }
          = round2 (2 * (({ nodes := [0, 1], edges := [(0, 1)] } : Graph).edges.length : ℚ)
            / (({ nodes := [0, 1], edges := [(0, 1)] } : Graph).nodes.length : ℚ)))) ∧
      (({ nodes := [0, 1], edges := [(0, 1)] } : Graph).nodes.length = 0 →
        averageDegree { nodes := [0, 1], edges := [(0, 1)] } = 0) :=
  C7_average_degree 2 1 (fun i => i) _ (by decide)

/-! ### Connected components -/

theorem lookupLabel_map (f : Int → Int) :
    ∀ (N : List Int) (v : Int), v ∈ N →
      lookupLabel (N.map (fun u => (u, f u))) v = f v := by
  intro N
  induction N with
  | nil => intro v hv; exact absurd hv (List.not_mem_nil v)
  | cons a t ih =>
    intro v hv
    rw [List.map_cons, lookupLabel]
    by_cases h : a = v
    · rw [List.find?_cons_of_pos _ (by simp [h])]
      simp [h]
    · rw [List.find?_cons_of_neg _ (by simp [h])]
      rcases List.mem_cons.1 hv with hva | hvt
      · exact absurd hva.symm h
      · exact ih v hvt

theorem foldl_unionStep_noop (st : List (Int × Int)) :
    ∀ E : List (Int × Int), (∀ e ∈ E, lookupLabel st e.1 = lookupLabel st e.2) →
      E.foldl unionStep st = st := by
  intro E
  induction E with
  | nil => intro _; rfl
  | cons e E ih =>
    intro hE
    rw [List.foldl_cons]
    have h1 : unionStep st e = st := by
      rw [unionStep]
      simp only [hE e (List.mem_cons_self e E), if_pos]
    rw [h1]
    exact ih (fun x hx => hE x (List.mem_cons_of_mem e hx))

theorem unionStep_zero_k (n : Int) (k : Int) (hk1 : 1 ≤ k) (hkn : k < n) :
    unionStep ((pyRange n).map (fun u => (u, if u < k then 0 else u))) ((0 : Int), k)
      = (pyRange n).map (fun u => (u, if u < k + 1 then 0 else u)) := by
  have h0mem : (0 : Int) ∈ pyRange n := mem_pyRange.2 ⟨le_refl 0, by omega⟩
  have hkmem : k ∈ pyRange n := mem_pyRange.2 ⟨by omega, hkn⟩
  have hra : lookupLabel ((pyRange n).map (fun u => (u, if u < k then 0 else u))) (0 : Int)
      = 0 := by
    rw [lookupLabel_map _ _ _ h0mem]
    exact ite_self 0
  have hrb : lookupLabel ((pyRange n).map (fun u => (u, if u < k then 0 else u))) k = k := by
    rw [lookupLabel_map _ _ _ hkmem]
    exact if_neg (lt_irrefl k)
  rw [unionStep]
  simp only [hra, hrb]
  rw [if_neg (by omega : ¬(0 : Int) = k), List.map_map]
  refine List.map_congr_left ?_
  intro u hu
  dsimp only [Function.comp]
  by_cases h1 : u < k
  · rw [if_pos h1, ite_self, if_pos (show u < k + 1 by omega)]
  · rw [if_neg h1]
    by_cases h2 : u = k
    · rw [if_pos h2, if_pos (show u < k + 1 by omega)]
    · rw [if_neg h2, if_neg (show ¬u < k + 1 by omega)]

theorem foldl_union_block_zero (n : Int) :
    ∀ (d : Nat) (k : Int), 1 ≤ k → k + (d : Int) = n →
      ((List.range d).map (fun (t : Nat) => ((0 : Int), k + (t : Int)))).foldl unionStep
          ((pyRange n).map (fun u => (u, if u < k then 0 else u)))
        = (pyRange n).map (fun u => (u, if u < n then 0 else u)) := by
  intro d
  induction d with
  | zero =>
    intro k hk1 hkn
    have hkn2 : k = n := by omega
    subst hkn2
    rfl
  | succ p ih =>
    intro k hk1 hkn
    rw [List.range_succ_eq_map, List.map_cons, List.map_map, List.foldl_cons]
    have hhead : ((0 : Int), k + ((0 : Nat) : Int)) = ((0 : Int), k) := by
      norm_num
    rw [hhead, unionStep_zero_k n k hk1 (by push_cast at hkn; omega)]
    have htail : (List.range p).map ((fun (t : Nat) => ((0 : Int), k + (t : Int))) ∘ Nat.succ)
        = (List.range p).map (fun (t : Nat) => ((0 : Int), (k + 1) + (t : Int))) := by
      refine List.map_congr_left ?_
      intro t _
      dsimp only [Function.comp]
      have : k + ((t + 1 : Nat) : Int) = (k + 1) + (t : Int) := by push_cast; ring
      rw [show Nat.succ t = t + 1 from rfl, this]
    rw [htail]
    exact ih (k + 1) (by omega) (by push_cast at hkn ⊢; omega)

theorem map_const_replicate {γ : Type} (l : List γ) (c : Int) :
    l.map (fun _ => c) = List.replicate l.length c := by
  induction l with
  | nil => rfl
  | cons a t ih => rw [List.map_cons, ih, List.length_cons, List.replicate_succ]

theorem dedup_replicate_pos (mlen : Nat) (c : Int) (hm : 0 < mlen) :
    (List.replicate mlen c).dedup = [c] := by
  induction mlen with
  | zero => omega
  | succ p ih =>
    rw [List.replicate_succ]
    cases Nat.eq_zero_or_pos p with
    | inl hz =>
      rw [hz]
      simp
    | inr hp =>
      rw [List.dedup_cons_of_mem (List.mem_replicate.2 ⟨by omega, rfl⟩), ih hp]

theorem componentCount_no_edges (n : Int) :
    componentCount { nodes := pyRange n, edges := [] } = n.toNat := by
  rw [componentCount]
  rw [List.foldl_nil, List.map_map]
  have hid : (pyRange n).map (Prod.snd ∘ fun v => (v, v)) = pyRange n :=
    (List.map_congr_left (fun v _ => rfl)).trans (List.map_id _)
  rw [hid, List.dedup_eq_self.2 (pyRange_nodup n), length_pyRange]

theorem pyRange_cons (n : Int) (h : 1 ≤ n) :
    pyRange n = (0 : Int) :: ((List.range (n.toNat - 1)).map (fun (k : Nat) => ((k + 1 : Nat) : Int))) := by
  rw [pyRange]
  have hn : n.toNat = (n.toNat - 1) + 1 := by omega
  conv_lhs => rw [hn, List.range_succ_eq_map]
  rw [List.map_cons, List.map_map]
  rfl

theorem componentCount_complete (n : Int) (h : 1 ≤ n) :
    componentCount { nodes := pyRange n, edges := possibleEdges n } = 1 := by
  have hsplit : possibleEdges n
      = ((pyRangeFrom ((0 : Int) + 1) n).map (fun j => ((0 : Int), j)))
        ++ ((List.range (n.toNat - 1)).map (fun (k : Nat) => ((k + 1 : Nat) : Int))).flatMap
             (fun i => (pyRangeFrom (i + 1) n).map (fun j => (i, j))) := by
    rw [possibleEdges]
    conv_lhs => rw [pyRange_cons n h]
    rw [List.flatMap_cons]
  have hB0 : (pyRangeFrom ((0 : Int) + 1) n).map (fun j => ((0 : Int), j))
      = (List.range ((n - ((0 : Int) + 1)).toNat)).map
          (fun (t : Nat) => ((0 : Int), ((0 : Int) + 1) + (t : Int))) := by
    rw [pyRangeFrom, List.map_map]
    rfl
  have hinit : (pyRange n).map (fun v => (v, v))
      = (pyRange n).map (fun u => (u, if u < (1 : Int) then 0 else u)) := by
    refine List.map_congr_left ?_
    intro u hu
    have h0 : 0 ≤ u := (mem_pyRange.1 hu).1
    by_cases h1 : u < (1 : Int)
    · rw [if_pos h1]
      have : u = 0 := by omega
      rw [this]
    · rw [if_neg h1]
  rw [componentCount, hsplit, List.foldl_append, hB0]
  have hone : ((0 : Int) + 1 : Int) = 1 := by norm_num
  rw [hone]
  have hfold0 : ((List.range ((n - (1 : Int)).toNat)).map
        (fun (t : Nat) => ((0 : Int), (1 : Int) + (t : Int)))).foldl unionStep
          ((pyRange n).map (fun v => (v, v)))
      = (pyRange n).map (fun u => (u, if u < n then 0 else u)) := by
    rw [hinit]
    exact foldl_union_block_zero n ((n - (1 : Int)).toNat) 1 (le_refl 1) (by omega)
  rw [hfold0]
  have hnoop : (((List.range (n.toNat - 1)).map (fun (k : Nat) => ((k + 1 : Nat) : Int))).flatMap
        (fun i => (pyRangeFrom (i + 1) n).map (fun j => (i, j)))).foldl unionStep
          ((pyRange n).map (fun u => (u, if u < n then 0 else u)))
      = (pyRange n).map (fun u => (u, if u < n then 0 else u)) := by
    refine foldl_unionStep_noop _ _ ?_
    intro e he
    have hmem : e ∈ possibleEdges n := by
      rw [hsplit]
      exact List.mem_append_right _ he
    have hbounds := mem_possibleEdges.1 hmem
    have he1 : e.1 ∈ pyRange n := mem_pyRange.2 (by omega)
    have he2 : e.2 ∈ pyRange n := mem_pyRange.2 (by omega)
    rw [lookupLabel_map _ _ _ he1, lookupLabel_map _ _ _ he2,
      if_pos (by omega : e.1 < n), if_pos (by omega : e.2 < n)]
  rw [hnoop, List.map_map]
  have hzero : (pyRange n).map (Prod.snd ∘ fun u => (u, if u < n then 0 else u))
      = (pyRange n).map (fun _ => (0 : Int)) := by
    refine List.map_congr_left ?_
    intro u hu
    dsimp only [Function.comp]
    exact if_pos (mem_pyRange.1 hu).2
  rw [hzero, map_const_replicate, dedup_replicate_pos _ _ (by rw [length_pyRange]; omega)]
  rfl

/-- C6: for every `n ≥ 1`, the component count of the graph with nodes
`0, …, n-1` and no edges is exactly `n`, and the component count of the
complete graph on those nodes (whose edge list is the full candidate
list, of size `n*(n-1)/2`) is exactly 1. -/
theorem C6_component_count (n : Int) (h : 1 ≤ n) :
    componentCount { nodes := pyRange n, edges := [] } = n.toNat ∧
      componentCount { nodes := pyRange n, edges := possibleEdges n } = 1 ∧
      (possibleEdges n).length = n.toNat * (n.toNat - 1) / 2 :=
  ⟨componentCount_no_edges n, componentCount_complete n h, length_possibleEdges n⟩

theorem C6_component_count_witness :
    componentCount { nodes := pyRange 5, edges := [] } = (5 : Int).toNat ∧
      componentCount { nodes := pyRange 5, edges := possibleEdges 5 } = 1 ∧
      (possibleEdges 5).length = (5 : Int).toNat * ((5 : Int).toNat - 1) / 2 :=
  C6_component_count 5 (by decide)
